import Mathlib

/-!
Shallow embedding of the relevance-scoring and fallback-selection core of a
podcast semantic-search UI (TypeScript/React + Next.js API routes), together
with proofs about the embedded definitions.

Strings are modelled as lists of characters (`Str`), JS numbers for the
lexical scores as natural numbers / integers (all lexical scores are exact
small integers in the source), and JS numbers for remote similarity scores
as rationals.  `String.prototype.toLowerCase` is modelled by `Char.toLower`
(the two agree on ASCII; CJK characters are fixed points of both).
-/

abbrev Str := List Char

/-- Lowercasing of a JS string, character by character. -/
def toLowerStr (s : Str) : Str := s.map Char.toLower

/-- Test whether the pattern is a prefix of the haystack (used to model
`String.prototype.includes`). -/
def beginsWith : Str → Str → Bool
  | _, [] => true
  | [], _ :: _ => false
  | c :: hs, d :: ps => c == d && beginsWith hs ps

/-- Substring containment: `containsSub hay pat` models `hay.includes(pat)`
from JS. -/
def containsSub : Str → Str → Bool
  | [], pat => pat.isEmpty
  | c :: t, pat => beginsWith (c :: t) pat || containsSub t pat

/-- Model of the JS whitespace class `\s` for the characters that occur in
this code base. -/
def isSpaceB (c : Char) : Bool :=
  c == ' ' || c == '\t' || c == '\n' || c == '\r' || c == '\x0b' || c == '\x0c'

/-- Model of `String.prototype.trim`: drop whitespace from both ends. -/
def jsTrim (s : Str) : Str :=
  ((s.dropWhile isSpaceB).reverse.dropWhile isSpaceB).reverse

/-- Model of `String.prototype.split(" ")`: split on every single space
character; consecutive spaces yield empty fragments, exactly as in JS. -/
def splitSp : Str → List Str
  | [] => [[]]
  | c :: rest =>
    if c == ' ' then [] :: splitSp rest
    else
      match splitSp rest with
      | [] => [[c]]
      | w :: ws => (c :: w) :: ws

/-- Model of `Array.prototype.join(" ")`. -/
def joinSp : List Str → Str
  | [] => []
  | [w] => w
  | w :: ws => w ++ ' ' :: joinSp ws

/-- The `Podcast` record of the page components.  `fullDescription` is
optional in the source; absence is modelled by the empty string, which the
source treats identically (`podcast.fullDescription || ""`). -/
structure Podcast where
  id : Nat
  title : Str
  description : Str
  fullDescription : Str
  category : Str
  duration : Str
  publishDate : Str
  tags : List Str
  relevanceScore : Option Int
deriving DecidableEq

/-- The score a sort comparator or filter reads off a podcast:
`podcast.relevanceScore || 0` (equivalently `?? 0`; the score is a number). -/
def scoreOf (p : Podcast) : Int :=
  match p.relevanceScore with
  | none => 0
  | some s => s

/-- JS truthiness of the optional numeric field `relevanceScore`. -/
def truthyScore (p : Podcast) : Bool :=
  match p.relevanceScore with
  | none => false
  | some s => !(s == 0)

/-- The searchable text of a document: title, short description, full
description and tags concatenated with spaces, lowercased — exactly the
`searchContent` expression of `localSemanticSearch` (and of part_000's
`semanticSearch`). -/
def searchContent (p : Podcast) : Str :=
  toLowerStr (p.title ++ ' ' :: p.description ++ ' ' :: p.fullDescription
    ++ ' ' :: joinSp p.tags)

/-- Query terms: lowercase the query, split on single spaces, keep the
non-empty fragments. -/
def searchTerms (query : Str) : List Str :=
  (splitSp (toLowerStr query)).filter (fun t => decide (0 < t.length))

/-- The fixed semantic concept map of `localSemanticSearch` in part_001. -/
def semanticMap : List (Str × List Str) :=
  [("美食".data, ["餐廳".data, "料理".data, "川菜".data, "茶餐廳".data,
      "麻辣".data, "中式料理".data, "母親節".data, "饕客".data]),
   ("旅行".data, ["旅遊".data, "日本".data, "韓國".data, "觀光".data,
      "櫻花".data, "鐵路".data, "周遊券".data, "桃園".data, "露營".data]),
   ("財經".data, ["投資".data, "企業".data, "股票".data, "AI".data,
      "台積電".data, "電動車".data, "金融".data, "理財".data, "頭家".data,
      "董事長".data]),
   ("社會".data, ["議題".data, "教育".data, "長照".data, "霸凌".data,
      "移工".data, "偷渡".data, "司法".data, "犯罪".data]),
   ("娛樂".data, ["戲劇".data, "韓劇".data, "Netflix".data, "電影".data,
      "影視".data, "律政".data, "職人劇".data, "台劇".data]),
   ("科技".data, ["AI".data, "智能".data, "科技".data, "半導體".data,
      "電子".data, "導軌".data, "連接器".data, "雲端".data]),
   ("人物".data, ["故事".data, "專訪".data, "母親".data, "企業家".data,
      "創業".data, "家庭".data, "罕見疾病".data]),
   ("時尚".data, ["鐘錶".data, "復刻".data, "復古".data, "收藏".data,
      "設計".data, "瑞士".data, "百達翡麗".data]),
   ("調查".data, ["鏡爆點".data, "逃稅".data, "酒店".data, "金錢豹".data,
      "黑道".data, "醫療腐敗".data])]

/-- The fixed semantic concept map of `semanticSearch` in part_000. -/
def semanticMap0 : List (Str × List Str) :=
  [("美食".data, ["餐廳".data, "料理".data, "吃".data, "食物".data,
      "菜".data, "鍋".data, "丼".data, "燒鳥".data, "川菜".data, "蔬食".data]),
   ("旅行".data, ["旅遊".data, "景點".data, "地方".data, "城市".data,
      "溫泉".data, "日本".data, "桃園".data, "露營".data]),
   ("財經".data, ["投資".data, "企業".data, "金融".data, "理財".data,
      "股票".data, "經濟".data, "商業".data, "產業".data]),
   ("社會".data, ["詐騙".data, "犯罪".data, "議題".data, "問題".data,
      "移工".data, "司法".data, "逃稅".data]),
   ("娛樂".data, ["明星".data, "藝人".data, "爆料".data, "八卦".data,
      "電影".data, "戲劇".data, "影視".data]),
   ("人物".data, ["故事".data, "專訪".data, "訪談".data, "創業".data,
      "企業家".data, "母親".data, "家庭".data]),
   ("科技".data, ["電子".data, "製造".data, "連接器".data, "導軌".data,
      "雲端".data, "智能".data]),
   ("醫療".data, ["健康".data, "疾病".data, "醫院".data, "治療".data,
      "藥物".data, "SARS".data, "疫情".data])]

/-- The two scoring loops shared verbatim by `localSemanticSearch`
(part_001) and `semanticSearch` (part_000), abstracted over the concept
map: first `score += 10` for every term contained in the searchable text,
then, for every term and every map entry, `score += 5` when the term
contains the concept key (`term.includes(key)`) or some related term
occurs in the searchable text. -/
def scoreLoops (smap : List (Str × List Str)) (terms : List Str)
    (content : Str) : Nat :=
  let score1 := terms.foldl
    (fun sc term => if containsSub content term then sc + 10 else sc) 0
  terms.foldl
    (fun sc term => smap.foldl
      (fun sc2 kv =>
        if containsSub term kv.1 || kv.2.any (fun v => containsSub content v)
        then sc2 + 5 else sc2)
      sc)
    score1

/-- Attach the computed relevance score to a podcast
(`{ ...podcast, relevanceScore: score }`). -/
def withScore (smap : List (Str × List Str)) (query : Str) (p : Podcast) :
    Podcast :=
  let sc : Int := Int.ofNat (scoreLoops smap (searchTerms query) (searchContent p))
  { p with relevanceScore := some sc }

/-- Stable insertion of a podcast into a list sorted by descending score:
the element is placed after every element of strictly greater score and
before everything else, which is the position a stable sort with comparator
`(b.relevanceScore || 0) - (a.relevanceScore || 0)` gives it. -/
def insertDesc (p : Podcast) : List Podcast → List Podcast
  | [] => [p]
  | q :: rest =>
    if decide (scoreOf p < scoreOf q) then q :: insertDesc p rest
    else p :: q :: rest

/-- Stable sort by descending `relevanceScore`, modelling
`Array.prototype.sort` (stable per the ECMAScript spec) with the
comparator used in the source. -/
def sortDesc : List Podcast → List Podcast
  | [] => []
  | p :: rest => insertDesc p (sortDesc rest)

/-- The scoring pipeline shared by both page components: score every
candidate, keep the ones with a truthy score that is `> 0`, sort by
descending score. -/
def scorePipeline (smap : List (Str × List Str)) (query : Str)
    (podcasts : List Podcast) : List Podcast :=
  sortDesc (((podcasts.map (withScore smap query)).filter
    (fun p => truthyScore p && decide (0 < scoreOf p))))

/-- Model of `localSemanticSearch` from part_001. -/
def localSemanticSearch (query : Str) (podcasts : List Podcast) :
    List Podcast :=
  scorePipeline semanticMap query podcasts

/-- Model of `semanticSearch` from part_000 (same pipeline with its own
concept map, guarded by a pass-through on blank queries). -/
def semanticSearch (query : Str) (podcasts : List Podcast) : List Podcast :=
  if (jsTrim query).isEmpty then podcasts
  else scorePipeline semanticMap0 query podcasts

/-- A match as the client receives it from either search API route:
an id string and a numeric score.  JS numbers are modelled by rationals. -/
structure PMatch where
  id : Str
  score : ℚ
deriving DecidableEq

/-- Model of `Math.round`: round half toward positive infinity. -/
def jsRound (x : ℚ) : ℤ := Int.floor (x + 1/2)

/-- Numeric value of a list of decimal digit characters. -/
def digitsVal (l : Str) : Nat :=
  l.foldl (fun n c => n * 10 + (c.toNat - 48)) 0

/-- Model of JS `parseInt` in base 10 as applied to the id strings: parse
the leading run of decimal digits, `none` (NaN) when there is none. -/
def parseIntJS (s : Str) : Option Nat :=
  let ds := s.takeWhile Char.isDigit
  if ds.isEmpty then none else some (digitsVal ds)

/-- Map a single remote match back onto the candidate list
(`podcasts.find((p) => p.id === podcastId)`), attaching the score converted
to an integer percentage; `none` models the `null` returned for unmatched
ids. -/
def mapMatch (podcasts : List Podcast) (m : PMatch) : Option Podcast :=
  match parseIntJS m.id with
  | none => none
  | some pid =>
    (podcasts.find? (fun p => p.id == pid)).map
      (fun p => { p with relevanceScore := some (jsRound (m.score * 100)) })

/-- The filter `(p) => p && p.relevanceScore && p.relevanceScore > 20`
applied to the possibly-null mapped entries. -/
def keepScored (op : Option Podcast) : Bool :=
  match op with
  | none => false
  | some p => truthyScore p && decide (20 < scoreOf p)

/-- The mapping/threshold/sort step of `semanticSearchWithPinecone`: map the
remote matches onto the candidate podcasts, drop nulls and entries with
score not above 20, sort by descending score. -/
def mapPineconeMatches (ms : List PMatch) (podcasts : List Podcast) :
    List Podcast :=
  sortDesc ((ms.map (mapMatch podcasts)).filterMap
    (fun op => if keepScored op then op else none))

/-- Outcome of one `fetch` to a search API route, as observed by the
client: a parsed successful response, a non-ok HTTP status, or a thrown
error (network failure / JSON parse failure). -/
inductive FetchOutcome where
  | success (ms : List PMatch)
  | httpFailure (status : Nat)
  | exn
deriving DecidableEq

/-- The fetch sequence inside the `try` block of
`semanticSearchWithPinecone`: take the first response; if it is non-ok with
status 429 replace it by the fallback route's response; then a non-ok
response or a thrown error aborts the block exceptionally. -/
def fetchChain (r1 r2 : FetchOutcome) : Except Unit (List PMatch) :=
  let resp := match r1 with
    | FetchOutcome.httpFailure s => if s == 429 then r2 else r1
    | _ => r1
  match resp with
  | FetchOutcome.success ms => Except.ok ms
  | FetchOutcome.httpFailure _ => Except.error ()
  | FetchOutcome.exn => Except.error ()

/-- Model of `semanticSearchWithPinecone` from part_001, with the outcomes
of the two possible remote calls passed in as data: blank queries pass the
candidates through; a successful fetch chain is mapped/thresholded/sorted;
any exceptional outcome is caught and answered by `localSemanticSearch`. -/
def semanticSearchWithPinecone (query : Str) (podcasts : List Podcast)
    (r1 r2 : FetchOutcome) : List Podcast :=
  if (jsTrim query).isEmpty then podcasts
  else
    match fetchChain r1 r2 with
    | Except.ok ms => mapPineconeMatches ms podcasts
    | Except.error _ => localSemanticSearch query podcasts

/-- Request body sent by the client to either search route. -/
structure SearchRequestBody where
  query : Str
  topK : Nat
  includeMetadata : Bool
deriving DecidableEq

/-- The body of the first (true-embedding) search request in
`semanticSearchWithPinecone`. -/
def mainSearchRequest (query : Str) : SearchRequestBody :=
  { query := query, topK := 10, includeMetadata := true }

/-- The body of the fallback (local-embedding) search request in
`semanticSearchWithPinecone`. -/
def fallbackSearchRequest (query : Str) : SearchRequestBody :=
  { query := query, topK := 10, includeMetadata := true }

/-- The match list returned by the main pinecone route for a raw index
response: ids and scores are forwarded unchanged
(`score: match.score || 0`). -/
def mainRouteMatches (raw : List PMatch) : List PMatch :=
  raw.map (fun m => { id := m.id, score := m.score })

/-- The match list returned by the fallback route: raw index scores are
scaled by 0.8 (`score: (match.score || 0) * 0.8`, "slightly lower scores
for local embeddings"). -/
def fallbackRouteMatches (raw : List PMatch) : List PMatch :=
  raw.map (fun m => { id := m.id, score := m.score * (8/10) })

/-- The API-eligibility flag computed by `handleSearchInput`: at least two
characters, not whitespace-only, and not ending with a space. -/
def jsShouldUseAPI (v : Str) : Bool :=
  decide (2 ≤ v.length) && !(v.all isSpaceB) && !(v.getLast? == some ' ')

/-- The category pre-filter of `performSearch`: an exact match on the
selected category when one is selected, otherwise the whole corpus. -/
def categoryFilter (cat : Str) (data : List Podcast) : List Podcast :=
  if cat.isEmpty then data else data.filter (fun p => p.category == cat)

/-- Model of the `performSearch` closure from part_001, with the transient
UI state (`isTyping`, `shouldUseAPI`) and the remote outcomes passed in as
data.  Blank query with no category passes the corpus through; short
queries or active typing use the local scorer on the category-filtered
corpus; otherwise an eligible query goes through the pinecone chain and an
ineligible one through the local scorer. -/
def performSearch (searchQuery selectedCategory : Str)
    (isTyping shouldUseAPI : Bool) (r1 r2 : FetchOutcome)
    (podcastData : List Podcast) : List Podcast :=
  if (jsTrim searchQuery).isEmpty && selectedCategory.isEmpty then podcastData
  else if decide (searchQuery.length < 2) || isTyping then
    let filtered := categoryFilter selectedCategory podcastData
    if !(jsTrim searchQuery).isEmpty then localSemanticSearch searchQuery filtered
    else filtered
  else
    let filtered := categoryFilter selectedCategory podcastData
    if !(jsTrim searchQuery).isEmpty then
      if shouldUseAPI && !isTyping then
        semanticSearchWithPinecone searchQuery filtered r1 r2
      else localSemanticSearch searchQuery filtered
    else filtered

/-- The exact condition under which `performSearch` reaches the
`semanticSearchWithPinecone` call (the remote-vector strategy chain). -/
def usesRemote (searchQuery selectedCategory : Str)
    (isTyping shouldUseAPI : Bool) : Bool :=
  !((jsTrim searchQuery).isEmpty && selectedCategory.isEmpty)
    && !(decide (searchQuery.length < 2) || isTyping)
    && !(jsTrim searchQuery).isEmpty
    && (shouldUseAPI && !isTyping)

/-- Characters kept by the normalization regex of `createLocalEmbedding`,
`[一-鿿\w\s]`: CJK ideographs, ASCII word characters, whitespace. -/
def isKeptChar (c : Char) : Bool :=
  (decide (0x4e00 ≤ c.toNat) && decide (c.toNat ≤ 0x9fff))
    || c.isAlphanum || c == '_' || isSpaceB c

/-- Model of `.replace(/\s+/g, " ")`: collapse every whitespace run into a
single space. -/
def collapseWs : Str → Str
  | [] => []
  | [c] => if isSpaceB c then [' '] else [c]
  | c1 :: c2 :: rest =>
    if isSpaceB c1 && isSpaceB c2 then collapseWs (c2 :: rest)
    else (if isSpaceB c1 then ' ' else c1) :: collapseWs (c2 :: rest)

/-- The text normalization of `createLocalEmbedding`: lowercase, replace
every non-kept character by a space, collapse whitespace, trim. -/
def normalizeText (text : Str) : Str :=
  jsTrim (collapseWs
    ((toLowerStr text).map (fun c => if isKeptChar c then c else ' ')))

/-- The word list of `createLocalEmbedding`:
`normalizedText.split(" ").filter((w) => w.length > 0)`. -/
def wordsOf (text : Str) : List Str :=
  (splitSp (normalizeText text)).filter (fun w => decide (0 < w.length))

/-- Wrap an integer into the signed 32-bit range, the effect of JS `|`/`&`
coercion (`hash = hash & hash`). -/
def toInt32 (z : ℤ) : ℤ := (z + 2 ^ 31) % 2 ^ 32 - 2 ^ 31

/-- One step of the rolling hash:
`hash = (hash << 5) - hash + char; hash = hash & hash`.  The shift acts on
the 32-bit value, the subtraction and addition are exact, and the final
`&` wraps back into 32 bits. -/
def hashStep (h : ℤ) (c : Nat) : ℤ := toInt32 (toInt32 (h * 32) - h + c)

/-- The rolling hash of a word, starting from 0.  Character codes are
modelled by code points (all characters in play are in the BMP, where the
two agree). -/
def wordHash (w : Str) : ℤ := w.foldl (fun h c => hashStep h c.toNat) 0

/-- Add `x` to component `p` of the vector (`embedding[p] += x`). -/
noncomputable def addAt (v : List ℝ) (p : Nat) (x : ℝ) : List ℝ :=
  v.set p (v.getD p 0 + x)

/-- The contribution of one word: weight
`min(1, log(word.length + 1) / 3)` at the three derived hash positions,
scaled by 1.0, 0.7 and 0.5 respectively. -/
noncomputable def addWord (dim : Nat) (v : List ℝ) (w : Str) : List ℝ :=
  let h := wordHash w
  let pos1 := h.natAbs % dim
  let pos2 := (h * 31).natAbs % dim
  let pos3 := (h * 37).natAbs % dim
  let wt : ℝ := min 1 (Real.log (w.length + 1) / 3)
  addAt (addAt (addAt v pos1 wt) pos2 (wt * (7/10))) pos3 (wt * (5/10))

/-- The fixed semantic anchors of `createLocalEmbedding` (keys decoded from
the file's UTF-8 bytes) with their three boosted index positions. -/
def semanticFeatures : List (Str × List Nat) :=
  [("美食".data, [100, 200, 300]),
   ("旅遊".data, [150, 250, 350]),
   ("投資".data, [400, 500, 600]),
   ("財經".data, [450, 550, 650]),
   ("科技".data, [700, 800, 900]),
   ("企業".data, [750, 850, 950]),
   ("社會".data, [1000, 1100, 1200]),
   ("娛樂".data, [1300, 1400, 1500])]

/-- The pre-normalization embedding vector: start from the zero vector of
the given dimension, accumulate every word's hashed contributions, then add
a flat 2.0 at each anchor position of every keyword contained in the
normalized text. -/
noncomputable def preEmbedding (text : Str) (dim : Nat) : List ℝ :=
  let base := (wordsOf text).foldl (fun v w => addWord dim v w)
    (List.replicate dim 0)
  semanticFeatures.foldl
    (fun v kf =>
      if containsSub (normalizeText text) kf.1 then
        kf.2.foldl (fun v2 pos => if pos < dim then addAt v2 pos 2 else v2) v
      else v)
    base

/-- Euclidean magnitude of a vector,
`Math.sqrt(embedding.reduce((sum, val) => sum + val * val, 0))`. -/
noncomputable def magnitudeOf (v : List ℝ) : ℝ :=
  Real.sqrt ((v.map (fun a => a * a)).sum)

/-- Model of `createLocalEmbedding` from the fallback search route (JS
floating-point arithmetic idealized as real arithmetic): build the hashed
vector and L2-normalize it unless its magnitude is zero. -/
noncomputable def createLocalEmbedding (text : Str) (dim : Nat) : List ℝ :=
  let embedding := preEmbedding text dim
  let magnitude := magnitudeOf embedding
  if 0 < magnitude then embedding.map (fun a => a / magnitude) else embedding

theorem foldl_ite_add {α : Type} (p : α → Bool) (k : Nat) :
    ∀ (l : List α) (n : Nat),
      l.foldl (fun s a => if p a then s + k else s) n
        = n + (l.map (fun a => if p a then k else 0)).sum
  | [], n => by simp
  | a :: l, n => by
    simp only [List.foldl_cons, List.map_cons, List.sum_cons,
      foldl_ite_add p k l]
    by_cases h : p a
    · simp [h]
      omega
    · simp [h]

theorem foldl_foldl_ite_add {α β : Type} (C : α → β → Bool) (k : Nat)
    (inner : List β) :
    ∀ (l : List α) (n : Nat),
      l.foldl
        (fun s a => inner.foldl (fun s2 b => if C a b then s2 + k else s2) s) n
        = n + (l.map (fun a =>
            (inner.map (fun b => if C a b then k else 0)).sum)).sum
  | [], n => by simp
  | a :: l, n => by
    simp only [List.foldl_cons, List.map_cons, List.sum_cons,
      foldl_foldl_ite_add C k inner l, foldl_ite_add (C a) k inner n]
    omega

/-- The accumulated double loop of the lexical scorer equals the sum, over
all query terms, of a +10 substring credit plus, over all concept map
entries, a +5 concept credit. -/
theorem scoreLoops_eq_sum (smap : List (Str × List Str)) (terms : List Str)
    (content : Str) :
    scoreLoops smap terms content
      = (terms.map (fun t => if containsSub content t then 10 else 0)).sum
        + (terms.map (fun t => (smap.map (fun kv =>
            if containsSub t kv.1 || kv.2.any (fun v => containsSub content v)
            then 5 else 0)).sum)).sum := by
  unfold scoreLoops
  rw [foldl_foldl_ite_add
    (fun t kv => containsSub t kv.1 || kv.2.any (fun v => containsSub content v))
    5 smap terms, foldl_ite_add (fun t => containsSub content t) 10 terms 0]
  omega

theorem splitSp_ne_nil : ∀ l : Str, splitSp l ≠ []
  | [] => by simp [splitSp]
  | c :: rest => by
    simp only [splitSp]
    split
    · simp
    · split <;> simp

theorem splitSp_append_space (xs ys : Str) :
    splitSp (xs ++ ' ' :: ys) = splitSp xs ++ splitSp ys := by
  induction xs with
  | nil => simp [splitSp]
  | cons c rest ih =>
    simp only [List.cons_append, splitSp]
    cases h : c == ' ' with
    | true => simp [h, ih]
    | false =>
      simp only [h, Bool.false_eq_true, if_false]
      obtain ⟨w, ws, hw⟩ := List.exists_cons_of_ne_nil (splitSp_ne_nil rest)
      simp only [List.append_eq]
      rw [ih, hw]
      simp

theorem all_dropWhile (p : Char → Bool) :
    ∀ l : Str, (l.dropWhile p).all p = l.all p
  | [] => rfl
  | c :: rest => by
    simp only [List.dropWhile, List.all_cons]
    cases h : p c with
    | true => simp [all_dropWhile p rest]
    | false => simp [h]

theorem jsTrim_isEmpty_iff (s : Str) :
    (jsTrim s).isEmpty = true ↔ s.all isSpaceB = true := by
  unfold jsTrim
  rw [List.isEmpty_iff, List.reverse_eq_nil_iff, List.dropWhile_eq_nil_iff]
  constructor
  · intro h
    have h2 : (s.dropWhile isSpaceB).reverse.all isSpaceB = true := by
      rw [List.all_eq_true]
      exact fun x hx => h x hx
    rw [List.all_reverse, all_dropWhile] at h2
    exact h2
  · intro h x hx
    have h2 : (s.dropWhile isSpaceB).reverse.all isSpaceB = true := by
      rw [List.all_reverse, all_dropWhile]
      exact h
    rw [List.all_eq_true] at h2
    exact h2 x hx

theorem mem_insertDesc {a p : Podcast} :
    ∀ (l : List Podcast), a ∈ insertDesc p l ↔ a = p ∨ a ∈ l
  | [] => by simp [insertDesc]
  | q :: rest => by
    simp only [insertDesc]
    split
    · simp only [List.mem_cons, mem_insertDesc rest]
      tauto
    · simp only [List.mem_cons]

theorem mem_sortDesc {a : Podcast} :
    ∀ (l : List Podcast), a ∈ sortDesc l ↔ a ∈ l
  | [] => Iff.rfl
  | q :: rest => by
    simp only [sortDesc, mem_insertDesc, mem_sortDesc rest,
      List.mem_cons]

theorem length_insertDesc (p : Podcast) :
    ∀ l : List Podcast, (insertDesc p l).length = l.length + 1
  | [] => rfl
  | q :: rest => by
    simp only [insertDesc]
    split
    · simp [length_insertDesc p rest]
    · simp

theorem length_sortDesc : ∀ l : List Podcast, (sortDesc l).length = l.length
  | [] => rfl
  | q :: rest => by
    simp [sortDesc, length_insertDesc, length_sortDesc rest]

theorem pairwise_insertDesc {p : Podcast} :
    ∀ {l : List Podcast},
      l.Pairwise (fun a b => scoreOf b ≤ scoreOf a) →
      (insertDesc p l).Pairwise (fun a b => scoreOf b ≤ scoreOf a)
  | [], _ => by simp [insertDesc]
  | q :: rest, h => by
    rw [List.pairwise_cons] at h
    obtain ⟨hq, hrest⟩ := h
    simp only [insertDesc]
    split
    · rename_i hlt
      rw [decide_eq_true_eq] at hlt
      rw [List.pairwise_cons]
      refine ⟨fun x hx => ?_, pairwise_insertDesc hrest⟩
      rcases (mem_insertDesc _).mp hx with rfl | hx2
      · exact le_of_lt hlt
      · exact hq x hx2
    · rename_i hge
      rw [decide_eq_true_eq] at hge
      push_neg at hge
      rw [List.pairwise_cons]
      refine ⟨fun x hx => ?_, ?_⟩
      · rcases List.mem_cons.mp hx with rfl | hx2
        · exact hge
        · exact le_trans (hq x hx2) hge
      · rw [List.pairwise_cons]
        exact ⟨hq, hrest⟩

theorem pairwise_sortDesc :
    ∀ l : List Podcast,
      (sortDesc l).Pairwise (fun a b => scoreOf b ≤ scoreOf a)
  | [] => List.Pairwise.nil
  | _ :: rest => pairwise_insertDesc (pairwise_sortDesc rest)

theorem filter_insertDesc (s : ℤ) (p : Podcast) :
    ∀ l : List Podcast,
      (insertDesc p l).filter (fun x => decide (scoreOf x = s))
        = if scoreOf p = s
          then p :: l.filter (fun x => decide (scoreOf x = s))
          else l.filter (fun x => decide (scoreOf x = s))
  | [] => by
    simp only [insertDesc, List.filter]
    by_cases h : scoreOf p = s <;> simp [h]
  | q :: rest => by
    simp only [insertDesc]
    split
    · rename_i hlt
      rw [decide_eq_true_eq] at hlt
      by_cases hp : scoreOf p = s
      · have hq : ¬(scoreOf q = s) := by omega
        simp [List.filter_cons, hp, hq, filter_insertDesc s p rest]
      · by_cases hq : scoreOf q = s <;>
          simp [List.filter_cons, hp, hq, filter_insertDesc s p rest]
    · by_cases hp : scoreOf p = s <;> simp [List.filter_cons, hp]

theorem filter_sortDesc (s : ℤ) :
    ∀ l : List Podcast,
      (sortDesc l).filter (fun x => decide (scoreOf x = s))
        = l.filter (fun x => decide (scoreOf x = s))
  | [] => rfl
  | q :: rest => by
    simp only [sortDesc, filter_insertDesc, filter_sortDesc s rest,
      List.filter_cons]
    by_cases hq : scoreOf q = s <;> simp [hq]

theorem withScore_category (smap : List (Str × List Str)) (q : Str)
    (p : Podcast) : (withScore smap q p).category = p.category := rfl

theorem mem_scorePipeline {p : Podcast} {smap : List (Str × List Str)}
    {q : Str} {ps : List Podcast} :
    p ∈ scorePipeline smap q ps →
    ∃ p0, p0 ∈ ps ∧ p = withScore smap q p0 ∧ 0 < scoreOf p := by
  intro h
  unfold scorePipeline at h
  rw [mem_sortDesc, List.mem_filter] at h
  obtain ⟨hmem, hcond⟩ := h
  rw [List.mem_map] at hmem
  obtain ⟨p0, hp0, rfl⟩ := hmem
  rw [Bool.and_eq_true, decide_eq_true_eq] at hcond
  exact ⟨p0, hp0, rfl, hcond.2⟩

theorem mem_mapPineconeMatches {p : Podcast} {ms : List PMatch}
    {ps : List Podcast} :
    p ∈ mapPineconeMatches ms ps →
    ∃ p0, p0 ∈ ps ∧ p.category = p0.category ∧ p.id = p0.id
      ∧ 20 < scoreOf p := by
  intro h
  unfold mapPineconeMatches at h
  rw [mem_sortDesc, List.mem_filterMap] at h
  obtain ⟨op, hop, hkeep⟩ := h
  by_cases hk : keepScored op = true
  · rw [if_pos hk] at hkeep
    subst hkeep
    rw [List.mem_map] at hop
    obtain ⟨m, _, hmm⟩ := hop
    unfold mapMatch at hmm
    cases hpid : parseIntJS m.id with
    | none => rw [hpid] at hmm; exact absurd hmm (by simp)
    | some pid =>
      rw [hpid] at hmm
      rw [Option.map_eq_some'] at hmm
      obtain ⟨p0, hfind, hp⟩ := hmm
      have hmem0 : p0 ∈ ps := List.mem_of_find?_eq_some hfind
      have hscore : 20 < scoreOf p := by
        unfold keepScored at hk
        rw [Bool.and_eq_true, decide_eq_true_eq] at hk
        exact hk.2
      subst hp
      exact ⟨p0, hmem0, rfl, rfl, hscore⟩
  · rw [if_neg hk] at hkeep
    exact absurd hkeep (by simp)

theorem mem_pineconeSearch {p : Podcast} {q : Str} {ps : List Podcast}
    {r1 r2 : FetchOutcome} :
    p ∈ semanticSearchWithPinecone q ps r1 r2 →
    ∃ p0, p0 ∈ ps ∧ p.category = p0.category := by
  intro h
  unfold semanticSearchWithPinecone at h
  split at h
  · exact ⟨p, h, rfl⟩
  · cases hfc : fetchChain r1 r2 with
    | ok ms =>
      rw [hfc] at h
      obtain ⟨p0, hmem, hcat, _, _⟩ := mem_mapPineconeMatches h
      exact ⟨p0, hmem, hcat⟩
    | error u =>
      rw [hfc] at h
      obtain ⟨p0, hmem, rfl, _⟩ := mem_scorePipeline h
      exact ⟨p0, hmem, rfl⟩

theorem keep_and_eq (s : ℤ) (hs : 0 < s) (x : Podcast) :
    (decide (scoreOf x = s) && (truthyScore x && decide (0 < scoreOf x)))
      = decide (scoreOf x = s) := by
  cases hr : x.relevanceScore with
  | none =>
    have h0 : scoreOf x = 0 := by unfold scoreOf; rw [hr]
    have t1 : decide (scoreOf x = s) = false := by
      rw [decide_eq_false_iff_not]; omega
    simp [t1]
  | some k =>
    have h0 : scoreOf x = k := by unfold scoreOf; rw [hr]
    have ht : truthyScore x = !(k == 0) := by unfold truthyScore; rw [hr]
    by_cases h : k = s
    · subst h
      have t1 : (k == 0) = false := by rw [beq_eq_false_iff_ne]; omega
      have t2 : decide (0 < k) = true := by rw [decide_eq_true_eq]; omega
      have t3 : decide (k = k) = true := by simp
      rw [h0, ht, t1, t2, t3]
      rfl
    · have t3 : decide (k = s) = false := by
        rw [decide_eq_false_iff_not]; exact h
      rw [h0, ht, t3]
      simp

/-- A concrete corpus document used in witnesses and counterexamples: its
searchable text contains neither the character 美 nor any related term of
any concept entry. -/
def demoDoc : Podcast :=
  { id := 1, title := "播客".data, description := "節目".data,
    fullDescription := [], category := "社會".data, duration := "30:00".data,
    publishDate := "2024-01-01".data, tags := [], relevanceScore := none }

/-- Claim C1 counterexample: for the query term 美 and the document
`demoDoc`, the claimed rule (+5 when the query term is a substring of the
concept key 美食) predicts a score of 5, but the code
(`term.includes(key)`, i.e. +5 when the concept key is a substring of the
term) computes 0. -/
theorem claimC1_counterexample :
    scoreLoops semanticMap (searchTerms "美".data) (searchContent demoDoc) = 0
    ∧ ((searchTerms "美".data).map (fun t =>
        (if containsSub (searchContent demoDoc) t then 10 else 0)
          + (semanticMap.map (fun kv =>
              if containsSub kv.1 t
                || kv.2.any (fun v => containsSub (searchContent demoDoc) v)
              then 5 else 0)).sum)).sum = 5 := by
  constructor
  · decide
  · decide

/-- Claim C1 (amended): for every concept map, term list and searchable
text, the lexical score is the sum over all query terms of a +10 credit
when the text contains the term as a substring, plus, for every concept
entry, a +5 credit exactly when the query term CONTAINS the concept key as
a substring (`term.includes(key)`) or some related term is a substring of
the searchable text. -/
theorem claimC1_score_formula (smap : List (Str × List Str))
    (terms : List Str) (content : Str) :
    scoreLoops smap terms content
      = (terms.map (fun t => if containsSub content t then 10 else 0)).sum
        + (terms.map (fun t => (smap.map (fun kv =>
            if containsSub t kv.1 || kv.2.any (fun v => containsSub content v)
            then 5 else 0)).sum)).sum :=
  scoreLoops_eq_sum smap terms content

/-- Claim C7: the lexical scorer only returns documents with positive
score, sorted by descending score, and for every score value the documents
carrying it appear in their original corpus order (stability). -/
theorem claimC7_sorted_stable (q : Str) (ps : List Podcast) :
    (∀ p ∈ localSemanticSearch q ps, 0 < scoreOf p)
    ∧ (localSemanticSearch q ps).Pairwise (fun a b => scoreOf b ≤ scoreOf a)
    ∧ ∀ s : ℤ, 0 < s →
        (localSemanticSearch q ps).filter (fun x => decide (scoreOf x = s))
          = (ps.map (withScore semanticMap q)).filter
              (fun x => decide (scoreOf x = s)) := by
  refine ⟨?_, ?_, ?_⟩
  · intro p hp
    obtain ⟨p0, _, _, hpos⟩ := mem_scorePipeline hp
    exact hpos
  · unfold localSemanticSearch scorePipeline
    exact pairwise_sortDesc _
  · intro s hs
    unfold localSemanticSearch scorePipeline
    rw [filter_sortDesc, List.filter_filter]
    apply List.filter_congr
    intro x _
    exact keep_and_eq s hs x

theorem claimC7_witness :
    (0:ℤ) < 15
    ∧ (localSemanticSearch "美食".data [demoDoc]).filter
        (fun x => decide (scoreOf x = 15))
        = ([demoDoc].map (withScore semanticMap "美食".data)).filter
            (fun x => decide (scoreOf x = 15)) :=
  ⟨by decide, (claimC7_sorted_stable "美食".data [demoDoc]).2.2 15 (by decide)⟩

theorem searchTerms_append (q t : Str) :
    searchTerms (q ++ ' ' :: t) = searchTerms q ++ searchTerms t := by
  unfold searchTerms toLowerStr
  rw [List.map_append, List.map_cons]
  have hsp : Char.toLower ' ' = ' ' := by decide
  rw [hsp, splitSp_append_space, List.filter_append]

theorem scoreLoops_append (smap : List (Str × List Str)) (ts1 ts2 : List Str)
    (content : Str) :
    scoreLoops smap (ts1 ++ ts2) content
      = scoreLoops smap ts1 content + scoreLoops smap ts2 content := by
  rw [scoreLoops_eq_sum, scoreLoops_eq_sum, scoreLoops_eq_sum,
    List.map_append, List.map_append, List.sum_append, List.sum_append]
  omega

/-- Claim C8: appending a further term to a query can only increase (never
decrease) any document's lexical score. -/
theorem claimC8_monotonic (q t : Str) (d : Podcast) :
    scoreLoops semanticMap (searchTerms q) (searchContent d)
      ≤ scoreLoops semanticMap (searchTerms (q ++ ' ' :: t)) (searchContent d) := by
  rw [searchTerms_append, scoreLoops_append]
  omega

/-- Claim C3: for a blank (empty or whitespace-only) query with no
category selected, `performSearch` returns the corpus unchanged — same
documents, original order, untouched scores — regardless of typing state,
API eligibility or remote outcomes. -/
theorem claimC3_blank_passthrough (q : Str) (t u : Bool)
    (r1 r2 : FetchOutcome) (data : List Podcast)
    (h : (jsTrim q).isEmpty = true) :
    performSearch q [] t u r1 r2 data = data := by
  unfold performSearch
  rw [h]
  simp

theorem claimC3_witness :
    (jsTrim "   ".data).isEmpty = true
    ∧ performSearch "   ".data [] false false FetchOutcome.exn
        FetchOutcome.exn [demoDoc] = [demoDoc] :=
  ⟨by decide, claimC3_blank_passthrough "   ".data false false
    FetchOutcome.exn FetchOutcome.exn [demoDoc] (by decide)⟩

/-- Claim C2: for a non-blank query the fallback chain is executed in
order, stopping at the first success — a successful first fetch is
mapped directly; a 429 first response retries through the fallback route
and a successful retry is mapped; every other failure shape (non-429 HTTP
failure, thrown error, failed retry) ends in the pure local lexical
scorer, so the function always produces a list. -/
theorem claimC2_fallback_chain (q : Str) (ps : List Podcast)
    (r1 r2 : FetchOutcome) (h : (jsTrim q).isEmpty = false) :
    (∀ ms, r1 = FetchOutcome.success ms →
      semanticSearchWithPinecone q ps r1 r2 = mapPineconeMatches ms ps)
    ∧ (∀ ms, r1 = FetchOutcome.httpFailure 429 →
        r2 = FetchOutcome.success ms →
        semanticSearchWithPinecone q ps r1 r2 = mapPineconeMatches ms ps)
    ∧ (∀ s, s ≠ 429 → r1 = FetchOutcome.httpFailure s →
        semanticSearchWithPinecone q ps r1 r2 = localSemanticSearch q ps)
    ∧ (r1 = FetchOutcome.exn →
        semanticSearchWithPinecone q ps r1 r2 = localSemanticSearch q ps)
    ∧ (∀ s, r1 = FetchOutcome.httpFailure 429 →
        r2 = FetchOutcome.httpFailure s →
        semanticSearchWithPinecone q ps r1 r2 = localSemanticSearch q ps)
    ∧ (r1 = FetchOutcome.httpFailure 429 → r2 = FetchOutcome.exn →
        semanticSearchWithPinecone q ps r1 r2 = localSemanticSearch q ps) := by
  refine ⟨?_, ?_, ?_, ?_, ?_, ?_⟩
  · intro ms h1
    subst h1
    simp [semanticSearchWithPinecone, fetchChain, h]
  · intro ms h1 h2
    subst h1
    subst h2
    simp [semanticSearchWithPinecone, fetchChain, h]
  · intro s hs h1
    subst h1
    have hbeq : (s == 429) = false := by
      rw [beq_eq_false_iff_ne]
      exact hs
    simp [semanticSearchWithPinecone, fetchChain, h, hbeq]
  · intro h1
    subst h1
    simp [semanticSearchWithPinecone, fetchChain, h]
  · intro s h1 h2
    subst h1
    subst h2
    simp [semanticSearchWithPinecone, fetchChain, h]
  · intro h1 h2
    subst h1
    subst h2
    simp [semanticSearchWithPinecone, fetchChain, h]

theorem claimC2_witness :
    (jsTrim "美食".data).isEmpty = false
    ∧ semanticSearchWithPinecone "美食".data [demoDoc] FetchOutcome.exn
        FetchOutcome.exn = localSemanticSearch "美食".data [demoDoc] :=
  ⟨by decide, (claimC2_fallback_chain "美食".data [demoDoc] FetchOutcome.exn
    FetchOutcome.exn (by decide)).2.2.2.1 rfl⟩

/-- Claim C4: with a category selected, every document returned by
`performSearch` carries exactly that category, regardless of typing state,
API eligibility and remote outcomes — the category filter runs before any
scoring strategy and remote matches are mapped back only onto the
pre-filtered candidates. -/
theorem claimC4_category_invariant (q cat : Str) (t u : Bool)
    (r1 r2 : FetchOutcome) (data : List Podcast) (p : Podcast)
    (hcat : cat ≠ []) (hp : p ∈ performSearch q cat t u r1 r2 data) :
    p.category = cat := by
  have hce : cat.isEmpty = false := by
    cases cat with
    | nil => exact absurd rfl hcat
    | cons a l => rfl
  have hmemfil : ∀ x : Podcast, x ∈ categoryFilter cat data →
      x.category = cat := by
    intro x hx
    unfold categoryFilter at hx
    rw [hce] at hx
    simp only [Bool.false_eq_true, if_false] at hx
    rw [List.mem_filter] at hx
    exact eq_of_beq hx.2
  unfold performSearch at hp
  rw [hce, Bool.and_false] at hp
  simp only [Bool.false_eq_true, if_false] at hp
  split at hp
  · split at hp
    · obtain ⟨p0, hmem0, rfl, _⟩ := mem_scorePipeline hp
      rw [withScore_category]
      exact hmemfil p0 hmem0
    · exact hmemfil p hp
  · split at hp
    · split at hp
      · obtain ⟨p0, hmem0, hcateq⟩ := mem_pineconeSearch hp
        rw [hcateq]
        exact hmemfil p0 hmem0
      · obtain ⟨p0, hmem0, rfl, _⟩ := mem_scorePipeline hp
        rw [withScore_category]
        exact hmemfil p0 hmem0
    · exact hmemfil p hp

theorem claimC4_witness :
    ("社會".data ≠ ([] : Str))
    ∧ withScore semanticMap "美食".data demoDoc ∈
        performSearch "美食".data "社會".data false false FetchOutcome.exn
          FetchOutcome.exn [demoDoc]
    ∧ (withScore semanticMap "美食".data demoDoc).category = "社會".data :=
  ⟨by decide, by decide,
    claimC4_category_invariant "美食".data "社會".data false false
      FetchOutcome.exn FetchOutcome.exn [demoDoc]
      (withScore semanticMap "美食".data demoDoc) (by decide) (by decide)⟩

theorem jsTrim_isEmpty_false_iff (s : Str) :
    (jsTrim s).isEmpty = false ↔ s.all isSpaceB = false := by
  rw [← Bool.not_eq_true, ← Bool.not_eq_true, not_iff_not, jsTrim_isEmpty_iff]

/-- Claim C9 counterexample: the settled query "ab " has length ≥ 2 and is
not pure whitespace — by the claim the remote chain should be attempted —
yet the decision logic rejects it because it ends with a space. -/
theorem claimC9_counterexample :
    2 ≤ ("ab ".data : Str).length
    ∧ (jsTrim "ab ".data).isEmpty = false
    ∧ usesRemote "ab ".data [] false (jsShouldUseAPI "ab ".data) = false := by
  refine ⟨by decide, by decide, by decide⟩

/-- Claim C9 (amended): for a settled query (not typing) with the
eligibility flag computed by `handleSearchInput`, the remote chain is
attempted exactly when the query has at least 2 characters, is not pure
whitespace, and does not end with a space; while typing the remote chain
is never reached and the search result does not depend on the remote
outcomes; whenever the remote condition does hold, `performSearch`
delegates to the pinecone chain on the category-filtered corpus. -/
theorem claimC9_remote_eligibility (q cat : Str) :
    (usesRemote q cat false (jsShouldUseAPI q)
      = (decide (2 ≤ q.length) && !(jsTrim q).isEmpty
          && !(q.getLast? == some ' ')))
    ∧ (∀ u, usesRemote q cat true u = false)
    ∧ (∀ u r1 r2 r1b r2b data,
        performSearch q cat true u r1 r2 data
          = performSearch q cat true u r1b r2b data)
    ∧ (∀ t u r1 r2 data, usesRemote q cat t u = true →
        performSearch q cat t u r1 r2 data
          = semanticSearchWithPinecone q (categoryFilter cat data) r1 r2)
    ∧ (∀ u r1 r2 data, (jsTrim q).isEmpty = false →
        usesRemote q cat false u = false →
        performSearch q cat false u r1 r2 data
          = localSemanticSearch q (categoryFilter cat data)) := by
  have had : (jsTrim q).isEmpty = q.all isSpaceB := by
    cases h : q.all isSpaceB with
    | false => exact (jsTrim_isEmpty_false_iff q).mpr h
    | true => exact jsTrim_isEmpty_iff q |>.mpr h
  have hbc : decide (q.length < 2) = !decide (2 ≤ q.length) := by
    by_cases hl : q.length < 2
    · have h2 : ¬ (2 ≤ q.length) := by omega
      simp [hl, h2]
    · have h2 : 2 ≤ q.length := by omega
      simp [hl, h2]
  refine ⟨?_, ?_, ?_, ?_, ?_⟩
  · unfold usesRemote jsShouldUseAPI
    rw [had, hbc]
    cases hc : decide (2 ≤ q.length) <;> cases hd : q.all isSpaceB <;>
      cases he : q.getLast? == some ' ' <;> cases hf : cat.isEmpty <;> simp
  · intro u
    simp [usesRemote]
  · intro u r1 r2 r1b r2b data
    unfold performSearch
    split
    · rfl
    · simp
  · intro t u r1 r2 data h
    cases hA : (jsTrim q).isEmpty <;> cases hB : cat.isEmpty <;>
      cases hC : decide (q.length < 2) <;> cases hD : t <;> cases hE : u <;>
      simp only [usesRemote, hA, hB, hC, hD, hE, Bool.and_true,
        Bool.and_false, Bool.true_and, Bool.false_and, Bool.not_true,
        Bool.not_false, Bool.or_true, Bool.or_false,
        Bool.false_eq_true] at h <;>
      simp [performSearch, hA, hB, hC, hD, hE]
  · intro u r1 r2 data htrim hur
    cases hB : cat.isEmpty <;> cases hC : decide (q.length < 2) <;>
      cases hE : u <;>
      simp only [usesRemote, htrim, hB, hC, hE, Bool.and_true,
        Bool.and_false, Bool.true_and, Bool.false_and, Bool.not_true,
        Bool.not_false, Bool.or_true, Bool.or_false,
        Bool.true_eq_false] at hur <;>
      simp [performSearch, htrim, hB, hC, hE]

theorem claimC9_witness :
    usesRemote "美食".data [] false (jsShouldUseAPI "美食".data) = true
    ∧ performSearch "美食".data [] false
        (jsShouldUseAPI "美食".data) FetchOutcome.exn FetchOutcome.exn [demoDoc]
        = semanticSearchWithPinecone "美食".data
            (categoryFilter [] [demoDoc]) FetchOutcome.exn FetchOutcome.exn :=
  ⟨by decide, (claimC9_remote_eligibility "美食".data []).2.2.2.1 false
    (jsShouldUseAPI "美食".data) FetchOutcome.exn FetchOutcome.exn [demoDoc]
    (by decide)⟩

/-- A corpus of 11 identically-titled documents, all matching the query
美食, used to exhibit that the local path has no result cap. -/
def capDoc (i : Nat) : Podcast :=
  { id := i, title := "美食".data, description := [], fullDescription := [],
    category := "美食類".data, duration := [], publishDate := [], tags := [],
    relevanceScore := none }

def capCorpus : List Podcast := (List.range 11).map (fun i => capDoc (i + 1))

/-- Claim C10: both remote requests fix `topK` at 10 and the
mapping/threshold step only discards entries, so a remote response of at
most 10 matches yields at most 10 results; the local lexical path has no
cap and can return the entire candidate corpus (here, 11 documents). -/
theorem claimC10_topk_cap :
    (∀ q, (mainSearchRequest q).topK = 10 ∧ (fallbackSearchRequest q).topK = 10)
    ∧ (∀ (ms : List PMatch) (ps : List Podcast), ms.length ≤ 10 →
        (mapPineconeMatches ms ps).length ≤ 10)
    ∧ (localSemanticSearch "美食".data capCorpus).length = capCorpus.length
    ∧ 10 < capCorpus.length := by
  refine ⟨fun q => ⟨rfl, rfl⟩, ?_, by decide, by decide⟩
  intro ms ps h
  unfold mapPineconeMatches
  rw [length_sortDesc]
  have h1 := List.length_filterMap_le
    (fun op => if keepScored op then op else none) (ms.map (mapMatch ps))
  rw [List.length_map] at h1
  omega

theorem claimC10_witness :
    ([⟨"1".data, (1:ℚ)⟩] : List PMatch).length ≤ 10
    ∧ (mapPineconeMatches [⟨"1".data, (1:ℚ)⟩] []).length ≤ 10 :=
  ⟨by decide, claimC10_topk_cap.2.1 [⟨"1".data, (1:ℚ)⟩] [] (by decide)⟩

/-- The document `demoDoc` carrying a given relevance score. -/
def scoredDemo (s : ℤ) : Podcast := { demoDoc with relevanceScore := some s }

/-- Claim C5 counterexample: a raw similarity of 0.22 survives the
main-route pipeline (rescaled score 22 > 20) but is discarded by the
fallback-route pipeline (0.22·0.8·100 rounds to 18 ≤ 20) — so the
effective cutoff for locally-hashed embeddings is higher, not lower. -/
theorem claimC5_counterexample :
    mapPineconeMatches (mainRouteMatches [⟨"1".data, (22:ℚ)/100⟩]) [demoDoc]
      ≠ []
    ∧ mapPineconeMatches (fallbackRouteMatches [⟨"1".data, (22:ℚ)/100⟩])
        [demoDoc] = [] := by
  have hm : jsRound ((22:ℚ)/100 * 100) = 22 := by
    unfold jsRound
    norm_num
  have hf : jsRound ((22:ℚ)/100 * (8/10) * 100) = 18 := by
    unfold jsRound
    norm_num
  constructor
  · have e1 : mainRouteMatches [⟨"1".data, (22:ℚ)/100⟩]
        = [⟨"1".data, (22:ℚ)/100⟩] := rfl
    have hmm : mapMatch [demoDoc] ⟨"1".data, (22:ℚ)/100⟩
        = some (scoredDemo (jsRound ((22:ℚ)/100 * 100))) := rfl
    rw [e1]
    unfold mapPineconeMatches
    rw [List.map_cons, List.map_nil, hmm, hm]
    decide
  · have e1 : fallbackRouteMatches [⟨"1".data, (22:ℚ)/100⟩]
        = [⟨"1".data, (22:ℚ)/100 * (8/10)⟩] := rfl
    have hmm : mapMatch [demoDoc] ⟨"1".data, (22:ℚ)/100 * (8/10)⟩
        = some (scoredDemo (jsRound ((22:ℚ)/100 * (8/10) * 100))) := rfl
    rw [e1]
    unfold mapPineconeMatches
    rw [List.map_cons, List.map_nil, hmm, hf]
    decide

/-- Claim C5 (amended): every document of the similarity-ranked result has
a rescaled integer score strictly above the client threshold 20 and the id
of an existing candidate document (unmatched ids are discarded).  The
threshold on the rescaled score is the same for both remote strategies;
because the fallback route pre-scales raw scores by 0.8, every raw
similarity that survives the locally-hashed pipeline also survives the
true-embedding pipeline, i.e. the effective raw cutoff is higher (not
lower) for locally-hashed embeddings. -/
theorem claimC5_threshold_and_ids :
    (∀ (ms : List PMatch) (ps : List Podcast) (p : Podcast),
      p ∈ mapPineconeMatches ms ps →
      20 < scoreOf p ∧ ∃ p0, p0 ∈ ps ∧ p0.id = p.id)
    ∧ (∀ s : ℚ, 20 < jsRound (s * (8/10) * 100) → 20 < jsRound (s * 100)) := by
  constructor
  · intro ms ps p hp
    obtain ⟨p0, hmem, _, hid, hscore⟩ := mem_mapPineconeMatches hp
    exact ⟨hscore, p0, hmem, hid.symm⟩
  · intro s h
    unfold jsRound at h ⊢
    have h21 : (21 : ℚ) ≤ s * (8/10) * 100 + 1/2 := by
      rw [Int.lt_iff_add_one_le] at h
      have h2 := Int.le_floor.mp h
      exact_mod_cast h2
    have hle : s * (8/10) * 100 + 1/2 ≤ s * 100 + 1/2 := by nlinarith
    calc (20:ℤ) < Int.floor (s * (8/10) * 100 + 1/2) := h
      _ ≤ Int.floor (s * 100 + 1/2) := Int.floor_le_floor hle

theorem claimC5_witness :
    scoredDemo 50 ∈ mapPineconeMatches [⟨"1".data, (1:ℚ)/2⟩] [demoDoc]
    ∧ 20 < scoreOf (scoredDemo 50)
    ∧ ∃ p0, p0 ∈ [demoDoc] ∧ p0.id = (scoredDemo 50).id := by
  have hmem : scoredDemo 50 ∈
      mapPineconeMatches [⟨"1".data, (1:ℚ)/2⟩] [demoDoc] := by
    have hmm : mapMatch [demoDoc] ⟨"1".data, (1:ℚ)/2⟩
        = some (scoredDemo (jsRound ((1:ℚ)/2 * 100))) := rfl
    have hm : jsRound ((1:ℚ)/2 * 100) = 50 := by
      unfold jsRound
      norm_num
    unfold mapPineconeMatches
    rw [List.map_cons, List.map_nil, hmm, hm]
    decide
  have hrest := claimC5_threshold_and_ids.1 [⟨"1".data, (1:ℚ)/2⟩] [demoDoc]
    (scoredDemo 50) hmem
  exact ⟨hmem, hrest.1, hrest.2⟩

theorem length_foldl {α : Type} (f : List ℝ → α → List ℝ)
    (hf : ∀ v a, (f v a).length = v.length) :
    ∀ (l : List α) (v : List ℝ), (l.foldl f v).length = v.length
  | [], _ => rfl
  | a :: l, v => by rw [List.foldl_cons, length_foldl f hf l, hf]

theorem length_addAt (v : List ℝ) (p : Nat) (x : ℝ) :
    (addAt v p x).length = v.length := by
  unfold addAt
  exact List.length_set v p _

theorem length_addWord (dim : Nat) (v : List ℝ) (w : Str) :
    (addWord dim v w).length = v.length := by
  unfold addWord
  rw [length_addAt, length_addAt, length_addAt]

theorem length_preEmbedding (text : Str) (dim : Nat) :
    (preEmbedding text dim).length = dim := by
  unfold preEmbedding
  rw [length_foldl, length_foldl, List.length_replicate]
  · intro v w
    exact length_addWord dim v w
  · intro v kf
    split
    · exact length_foldl _ (fun v2 pos => by
        split
        · exact length_addAt v2 pos 2
        · rfl) kf.2 v
    · rfl

theorem sumSq_nonneg (v : List ℝ) : 0 ≤ (v.map (fun a => a * a)).sum := by
  apply List.sum_nonneg
  intro y hy
  rw [List.mem_map] at hy
  obtain ⟨a, _, rfl⟩ := hy
  exact mul_self_nonneg a

theorem sumSq_map_mul (c : ℝ) :
    ∀ v : List ℝ,
      ((v.map (fun a => a * c)).map (fun a => a * a)).sum
        = ((v.map (fun a => a * a)).sum) * (c * c)
  | [] => by simp
  | a :: v => by
    simp only [List.map_cons, List.sum_cons, sumSq_map_mul c v]
    ring

theorem sumSq_zero_all {v : List ℝ} :
    (v.map (fun a => a * a)).sum = 0 → ∀ a ∈ v, a = 0 := by
  induction v with
  | nil => intro _ a ha; exact absurd ha (List.not_mem_nil a)
  | cons b l ih =>
    intro h a ha
    rw [List.map_cons, List.sum_cons] at h
    have hb : 0 ≤ b * b := mul_self_nonneg b
    have hl : 0 ≤ (l.map (fun a => a * a)).sum := sumSq_nonneg l
    have hb0 : b * b = 0 := by linarith
    rcases List.mem_cons.mp ha with rfl | ha2
    · exact mul_self_eq_zero.mp hb0
    · exact ih (by linarith) a ha2

/-- Claim C6: the local embedder is deterministic, always produces a
vector of exactly 1536 components, and that vector either has Euclidean
magnitude exactly 1 (when the accumulated pre-normalization vector has
nonzero magnitude) or is the all-zero vector (exactly when the
pre-normalization magnitude is zero — the guard avoids dividing by
zero). -/
theorem claimC6_embedder (x : Str) :
    createLocalEmbedding x 1536 = createLocalEmbedding x 1536
    ∧ (createLocalEmbedding x 1536).length = 1536
    ∧ ((magnitudeOf (preEmbedding x 1536) ≠ 0
        ∧ magnitudeOf (createLocalEmbedding x 1536) = 1
        ∧ createLocalEmbedding x 1536 ≠ List.replicate 1536 (0:ℝ))
      ∨ (magnitudeOf (preEmbedding x 1536) = 0
        ∧ createLocalEmbedding x 1536 = List.replicate 1536 (0:ℝ))) := by
  have hs0 : 0 ≤ ((preEmbedding x 1536).map (fun a => a * a)).sum :=
    sumSq_nonneg _
  by_cases hm : magnitudeOf (preEmbedding x 1536) = 0
  · have hemb : createLocalEmbedding x 1536 = preEmbedding x 1536 := by
      unfold createLocalEmbedding
      rw [if_neg]
      rw [hm]
      exact lt_irrefl 0
    have hsum0 : ((preEmbedding x 1536).map (fun a => a * a)).sum = 0 := by
      have := Real.sqrt_eq_zero'.mp hm
      linarith
    have hall := sumSq_zero_all hsum0
    have hrep : preEmbedding x 1536 = List.replicate 1536 (0:ℝ) := by
      rw [List.eq_replicate_iff]
      exact ⟨length_preEmbedding x 1536, hall⟩
    refine ⟨rfl, ?_, Or.inr ⟨hm, by rw [hemb, hrep]⟩⟩
    rw [hemb]
    exact length_preEmbedding x 1536
  · have hlt : 0 < magnitudeOf (preEmbedding x 1536) :=
      lt_of_le_of_ne (Real.sqrt_nonneg _) (Ne.symm hm)
    have hemb : createLocalEmbedding x 1536
        = (preEmbedding x 1536).map
            (fun a => a / magnitudeOf (preEmbedding x 1536)) := by
      unfold createLocalEmbedding
      rw [if_pos hlt]
    have hspos : 0 < ((preEmbedding x 1536).map (fun a => a * a)).sum :=
      Real.sqrt_pos.mp hlt
    have hdivmul : (fun a : ℝ => a / magnitudeOf (preEmbedding x 1536))
        = fun a => a * (magnitudeOf (preEmbedding x 1536))⁻¹ := by
      funext a
      rw [div_eq_mul_inv]
    have hnorm : magnitudeOf (createLocalEmbedding x 1536) = 1 := by
      rw [hemb, hdivmul]
      unfold magnitudeOf
      rw [sumSq_map_mul, ← mul_inv, Real.mul_self_sqrt hs0,
        mul_inv_cancel₀ (ne_of_gt hspos), Real.sqrt_one]
    have hnz : createLocalEmbedding x 1536 ≠ List.replicate 1536 (0:ℝ) := by
      intro hcontra
      have hrep0 : magnitudeOf (List.replicate 1536 (0:ℝ)) = 0 := by
        unfold magnitudeOf
        rw [List.map_replicate]
        norm_num [List.sum_replicate]
      rw [hcontra, hrep0] at hnorm
      exact zero_ne_one hnorm
    refine ⟨rfl, ?_, Or.inl ⟨hm, hnorm, hnz⟩⟩
    rw [hemb, List.length_map]
    exact length_preEmbedding x 1536

theorem claimC6_witness :
    createLocalEmbedding [] 1536 = createLocalEmbedding [] 1536
    ∧ (createLocalEmbedding [] 1536).length = 1536
    ∧ ((magnitudeOf (preEmbedding [] 1536) ≠ 0
        ∧ magnitudeOf (createLocalEmbedding [] 1536) = 1
        ∧ createLocalEmbedding [] 1536 ≠ List.replicate 1536 (0:ℝ))
      ∨ (magnitudeOf (preEmbedding [] 1536) = 0
        ∧ createLocalEmbedding [] 1536 = List.replicate 1536 (0:ℝ))) :=
  claimC6_embedder []
